import Mathlib

/-!
# Verification of the `superburn` SS58 address codec

A shallow embedding of the address codec shared by the `tools/*.py` scripts of
the repository: BLAKE2b-based derivation of an SS58 (base-58, checksummed)
address from a 20-byte EVM (H160) address, and the inverse decode-and-validate
operation.  Python byte strings are modelled as `List Nat` (each entry a byte,
`< 256`); Python text strings are modelled as `List Nat` of Unicode code
points.  Fallible operations return `Except`.
-/

namespace Superburn

/-- Decidable equality for `Except`, so that concrete codec runs can be
checked by `decide`. -/
instance {ε α : Type} [DecidableEq ε] [DecidableEq α] : DecidableEq (Except ε α) := fun x y =>
  match x, y with
  | .error a, .error b =>
    if h : a = b then .isTrue (by rw [h])
    else .isFalse (by intro hc; injection hc; exact h (by assumption))
  | .ok a, .ok b =>
    if h : a = b then .isTrue (by rw [h])
    else .isFalse (by intro hc; injection hc; exact h (by assumption))
  | .error _, .ok _ => .isFalse (fun hc => Except.noConfusion hc)
  | .ok _, .error _ => .isFalse (fun hc => Except.noConfusion hc)

/-- Big-endian byte list to natural number, as in Python
`int.from_bytes(data, "big")`. -/
def beBytesToNat (data : List Nat) : Nat :=
  data.foldl (fun acc b => acc * 256 + b) 0

/-- `natToBEBytes k n` is `n` written as `k` big-endian base-256 digits,
as in Python `n.to_bytes(k, "big")`. -/
def natToBEBytes : Nat → Nat → List Nat
  | 0, _ => []
  | k + 1, n => natToBEBytes k (n / 256) ++ [n % 256]

/-- Little-endian byte list to natural number (used for BLAKE2b message words). -/
def leBytesToNat (data : List Nat) : Nat :=
  data.foldr (fun b acc => acc * 256 + b) 0

/-- `natToLEBytes k n` is `n` written as `k` little-endian base-256 digits. -/
def natToLEBytes : Nat → Nat → List Nat
  | 0, _ => []
  | k + 1, n => n % 256 :: natToLEBytes k (n / 256)

/-! ## BLAKE2b (RFC 7693), as used via Python `hashlib.blake2b`

The scripts call `hashlib.blake2b(data, digest_size=32)` and
`hashlib.blake2b(data, digest_size=64)` on unkeyed messages.  The embedding
below implements the full (sequential, unkeyed, no salt/personalization)
BLAKE2b hash over 64-bit words represented as `Nat` reduced mod `2 ^ 64`. -/

/-- `2 ^ 64`, the word modulus of BLAKE2b. -/
def U64 : Nat := 18446744073709551616

/-- Rotate a 64-bit word right by `n` bits (`0 < n < 64`). -/
def rotr64 (x n : Nat) : Nat :=
  ((x >>> n) ||| (x <<< (64 - n))) % U64

/-- The BLAKE2b initialization vector (the SHA-512 IV words). -/
def blakeIV : List Nat :=
  [0x6a09e667f3bcc908, 0xbb67ae8584caa73b, 0x3c6ef372fe94f82b, 0xa54ff53a5f1d36f1,
   0x510e527fade682d1, 0x9b05688c2b3e6c1f, 0x1f83d9abfb41bd6b, 0x5be0cd19137e2179]

/-- The BLAKE2 message schedule (rounds 10 and 11 reuse rows 0 and 1). -/
def blakeSigma : List (List Nat) :=
  [[0, 1, 2, 3, 4, 5, 6, 7, 8, 9, 10, 11, 12, 13, 14, 15],
   [14, 10, 4, 8, 9, 15, 13, 6, 1, 12, 0, 2, 11, 7, 5, 3],
   [11, 8, 12, 0, 5, 2, 15, 13, 10, 14, 3, 6, 7, 1, 9, 4],
   [7, 9, 3, 1, 13, 12, 11, 14, 2, 6, 5, 10, 4, 0, 15, 8],
   [9, 0, 5, 7, 2, 4, 10, 15, 14, 1, 11, 12, 6, 8, 3, 13],
   [2, 12, 6, 10, 0, 11, 8, 3, 4, 13, 7, 5, 15, 14, 1, 9],
   [12, 5, 1, 15, 14, 13, 4, 10, 0, 7, 6, 3, 9, 2, 8, 11],
   [13, 11, 7, 14, 12, 1, 3, 9, 5, 0, 15, 4, 8, 6, 2, 10],
   [6, 15, 14, 9, 11, 3, 0, 8, 12, 2, 13, 7, 1, 4, 10, 5],
   [10, 2, 8, 4, 7, 6, 1, 5, 15, 11, 9, 14, 3, 12, 13, 0]]

/-- The BLAKE2b quarter-round mixing function `G` acting on the 16-word
work vector `v` at positions `a b c d` with message words `x y`. -/
def gMix (v : List Nat) (a b c d x y : Nat) : List Nat :=
  let va := (v.getD a 0 + v.getD b 0 + x) % U64
  let vd := rotr64 ((v.getD d 0) ^^^ va) 32
  let vc := (v.getD c 0 + vd) % U64
  let vb := rotr64 ((v.getD b 0) ^^^ vc) 24
  let va2 := (va + vb + y) % U64
  let vd2 := rotr64 (vd ^^^ va2) 16
  let vc2 := (vc + vd2) % U64
  let vb2 := rotr64 (vb ^^^ vc2) 63
  (((v.set a va2).set b vb2).set c vc2).set d vd2

/-- One BLAKE2b round: eight `G` applications over the column/diagonal
pattern, with message words selected by the schedule row `r % 10`. -/
def blakeRound (m v : List Nat) (r : Nat) : List Nat :=
  let s := blakeSigma.getD (r % 10) []
  let mi := fun i => m.getD (s.getD i 0) 0
  let v := gMix v 0 4 8 12 (mi 0) (mi 1)
  let v := gMix v 1 5 9 13 (mi 2) (mi 3)
  let v := gMix v 2 6 10 14 (mi 4) (mi 5)
  let v := gMix v 3 7 11 15 (mi 6) (mi 7)
  let v := gMix v 0 5 10 15 (mi 8) (mi 9)
  let v := gMix v 1 6 11 12 (mi 10) (mi 11)
  let v := gMix v 2 7 8 13 (mi 12) (mi 13)
  gMix v 3 4 9 14 (mi 14) (mi 15)

/-- The BLAKE2b compression function `F` on state `h`, a 128-byte block,
byte counter `t` and finalization flag `last`. -/
def blakeCompress (h block : List Nat) (t : Nat) (last : Bool) : List Nat :=
  let m := (List.range 16).map fun i => leBytesToNat ((block.drop (8 * i)).take 8)
  let v := h ++ blakeIV
  let v := v.set 12 ((v.getD 12 0) ^^^ (t % U64))
  let v := v.set 13 ((v.getD 13 0) ^^^ (t / U64 % U64))
  let v := if last then v.set 14 ((v.getD 14 0) ^^^ (U64 - 1)) else v
  let v := (List.range 12).foldl (fun w r => blakeRound m w r) v
  (List.range 8).map fun i => (h.getD i 0) ^^^ (v.getD i 0) ^^^ (v.getD (i + 8) 0)

/-- Iterate the compression function over the 128-byte blocks of `msg`;
the final (possibly short) block is zero-padded and compressed with the
finalization flag and `t` = total input length. -/
def blake2bBlocks (h msg : List Nat) (off : Nat) : List Nat :=
  if hlen : 128 < msg.length then
    blake2bBlocks (blakeCompress h (msg.take 128) (off + 128) false) (msg.drop 128) (off + 128)
  else
    blakeCompress h (msg ++ List.replicate (128 - msg.length) 0) (off + msg.length) true
termination_by msg.length
decreasing_by simp [List.length_drop]; omega

/-- Unkeyed BLAKE2b of `msg` with output size `digestSize` bytes (`1..64`),
matching `hashlib.blake2b(msg, digest_size=digestSize).digest()`.  The state
word `h₀` is offset by the parameter block `0x0101kknn` with key length
`kk = 0` and digest length `nn = digestSize`. -/
def blake2b (msg : List Nat) (digestSize : Nat) : List Nat :=
  let h0 := blakeIV.set 0 ((blakeIV.getD 0 0) ^^^ 0x01010000 ^^^ digestSize)
  let h := blake2bBlocks h0 msg 0
  ((h.map (natToLEBytes 8)).flatten).take digestSize

/-! ## Base-58 -/

/-- The Bitcoin-style base-58 alphabet
`"123456789ABCDEFGHJKLMNPQRSTUVWXYZabcdefghijkmnopqrstuvwxyz"`, as the list
of its 58 character code points. -/
def BASE58_ALPHABET : List Nat :=
  ("123456789ABCDEFGHJKLMNPQRSTUVWXYZabcdefghijkmnopqrstuvwxyz".data.map Char.toNat)

/-- The base-58 digit characters of `n`, most significant first: the
`while num > 0: num, rem = divmod(num, 58)` loop of `b58encode`. -/
def b58encodeNum (n : Nat) : List Nat :=
  if h : n = 0 then []
  else b58encodeNum (n / 58) ++ [BASE58_ALPHABET.getD (n % 58) 0]
termination_by n
decreasing_by exact Nat.div_lt_self (Nat.pos_of_ne_zero h) (by omega)

/-- `b58encode` of `tools/h160_to_ss58.py` (repeated verbatim in
`tools/generate_h160_keypair.py`): big-endian base-58 digits of the byte
string's value, preceded by one `'1'` character (code 49) per leading zero
byte. -/
def b58encode (data : List Nat) : List Nat :=
  List.replicate ((data.takeWhile (fun b => b == 0)).length) 49
    ++ b58encodeNum (beBytesToNat data)

/-- Decode failures of `b58decode` and `decode_ss58_hotkey` /
`decode_ss58_address`; each constructor is a distinct `raise` in the source. -/
inductive DecodeError
  | invalidCharacter
  | tooShort
  | unsupportedFormat
  | checksumMismatch
  | invalidPayloadLength
deriving DecidableEq, Repr

/-- The accumulation loop of `b58decode`: Horner evaluation in base 58,
`none` at the first character outside the alphabet. -/
def b58decodeNumAux (acc : Nat) : List Nat → Option Nat
  | [] => some acc
  | c :: rest =>
    if c ∈ BASE58_ALPHABET then b58decodeNumAux (acc * 58 + BASE58_ALPHABET.indexOf c) rest
    else none

/-- Python `int.bit_length`: `0` for `0`, otherwise `⌊log₂ n⌋ + 1`. -/
def bitLength (n : Nat) : Nat := if n = 0 then 0 else Nat.log2 n + 1

/-- `b58decode` of `tools/register_neuron.py` (identical in
`tools/register_neuron_minimal.py`): Horner-parse the base-58 digits, write
the value back as its minimal big-endian byte string
(`num.to_bytes((num.bit_length() + 7) // 8, "big")`), and prepend one zero
byte per leading `'1'` character of the input. -/
def b58decode (s : List Nat) : Except DecodeError (List Nat) :=
  match b58decodeNumAux 0 s with
  | none => .error .invalidCharacter
  | some num =>
    let combined := natToBEBytes ((bitLength num + 7) / 8) num
    let leading := (s.takeWhile (fun c => c == 49)).length
    .ok (List.replicate leading 0 ++ combined)

/-! ## The address codec -/

/-- Encode failures of `h160_to_ss58`: the explicit length check
(`SystemExit`) and the `ValueError` raised by `bytes.fromhex` on a non-hex
string. -/
inductive EncodeError
  | invalidAddressLength
  | invalidHex
deriving DecidableEq, Repr

/-- Python `str.lower()` on the ASCII range (the only case the scripts
exercise): code points 65–90 shift to 97–122, all others are unchanged. -/
def pyLower (c : Nat) : Nat := if 65 ≤ c ∧ c ≤ 90 then c + 32 else c

/-- `str.removeprefix("0x")`: drop the first two characters when they are
`'0'` (48) and `'x'` (120). -/
def stripHexMarker (s : List Nat) : List Nat :=
  if s.take 2 = [48, 120] then s.drop 2 else s

/-- The value of a hex digit character (`0-9`, `a-f`, `A-F`), as accepted
case-insensitively by `bytes.fromhex`. -/
def hexDigitVal? (c : Nat) : Option Nat :=
  if 48 ≤ c ∧ c ≤ 57 then some (c - 48)
  else if 97 ≤ c ∧ c ≤ 102 then some (c - 87)
  else if 65 ≤ c ∧ c ≤ 70 then some (c - 55)
  else none

/-- Whether `c` is a hex digit character. -/
def isHexDigit (c : Nat) : Bool := (hexDigitVal? c).isSome

/-- ASCII whitespace (codes 9–13 and 32), skipped by `bytes.fromhex`. -/
def isAsciiWS (c : Nat) : Bool := c == 32 || (9 ≤ c && c ≤ 13)

/-- Parse pairs of hex digit characters into bytes; `none` on a non-hex
character or an odd number of digits. -/
def hexPairsToBytes : List Nat → Option (List Nat)
  | [] => some []
  | [_] => none
  | a :: b :: rest =>
    match hexDigitVal? a, hexDigitVal? b, hexPairsToBytes rest with
    | some x, some y, some tail => some ((x * 16 + y) :: tail)
    | _, _, _ => none

/-- Python `bytes.fromhex`: ASCII whitespace is ignored, the remaining
characters must form an even number of hex digits. -/
def bytesFromHex (s : List Nat) : Option (List Nat) :=
  hexPairsToBytes (s.filter (fun c => !isAsciiWS c))

/-- The ASCII bytes of the domain-separation tag `"evm:"`. -/
def evmTag : List Nat := [101, 118, 109, 58]

/-- The ASCII bytes of the checksum tag `"SS58PRE"`. -/
def ss58PreTag : List Nat := [83, 83, 53, 56, 80, 82, 69]

/-- The 32-byte derived payload:
`hashlib.blake2b(b"evm:" + addr_bytes, digest_size=32).digest()`. -/
def domainHash (addrBytes : List Nat) : List Nat :=
  blake2b (evmTag ++ addrBytes) 32

/-- The SS58 format-prefix bytes: one byte for `ss58_format < 64`, otherwise
`ss58_format |= 0b01000000` followed by
`bytes([ss58_format & 0xFF, (ss58_format >> 8) & 0xFF])`
(`x &&& 0xFF` written as `x % 256`). -/
def formatPrefixBytes (fmt : Nat) : List Nat :=
  if fmt < 64 then [fmt]
  else [(fmt ||| 64) % 256, ((fmt ||| 64) >>> 8) % 256]

/-- Lines 28–40 of `tools/h160_to_ss58.py` (identically lines 35–44 of
`tools/generate_h160_keypair.py`): derive the 32-byte payload, frame it with
the format-prefix bytes and the 2-byte `"SS58PRE"` BLAKE2b checksum, and
base-58 encode the result. -/
def ss58FromBytes (addrBytes : List Nat) (fmt : Nat) : List Nat :=
  let publicKey := domainHash addrBytes
  let pfxBytes := formatPrefixBytes fmt
  let payload := pfxBytes ++ publicKey
  let checksum := (blake2b (ss58PreTag ++ payload) 64).take 2
  b58encode (payload ++ checksum)

/-- `h160_to_ss58` of `tools/h160_to_ss58.py`: lower-case, strip a leading
`"0x"`, require exactly 40 remaining characters, hex-decode, then encode. -/
def h160_to_ss58 (h160 : List Nat) (fmt : Nat) : Except EncodeError (List Nat) :=
  let h := stripHexMarker (h160.map pyLower)
  if h.length ≠ 40 then .error .invalidAddressLength
  else
    match bytesFromHex h with
    | none => .error .invalidHex
    | some addrBytes => .ok (ss58FromBytes addrBytes fmt)

/-- The inlined `h160_to_ss58` of `tools/generate_h160_keypair.py`:
`bytes.fromhex(address[2:])` with no case-folding and no length check,
then the same encoding. -/
def h160_to_ss58_inlined (address : List Nat) (fmt : Nat) : Except EncodeError (List Nat) :=
  match bytesFromHex (address.drop 2) with
  | none => .error .invalidHex
  | some addrBytes => .ok (ss58FromBytes addrBytes fmt)

/-- `decode_ss58_hotkey` of `tools/register_neuron.py` (line-for-line
identical to `decode_ss58_address` of `tools/register_neuron_minimal.py`),
returning the format byte `decoded[0]` together with the 32-byte public key
`decoded[1:-2]`. -/
def decode_ss58_hotkey (ss58 : List Nat) : Except DecodeError (Nat × List Nat) :=
  match b58decode ss58 with
  | .error e => .error e
  | .ok decoded =>
    if decoded.length < 34 then .error .tooShort
    else
      let formatByte := decoded.getD 0 0
      if 64 ≤ formatByte then .error .unsupportedFormat
      else
        let pubkey := (decoded.drop 1).take (decoded.length - 3)
        let checksum := decoded.drop (decoded.length - 2)
        let expected := (blake2b (ss58PreTag ++ decoded.take (decoded.length - 2)) 64).take 2
        if checksum ≠ expected then .error .checksumMismatch
        else if pubkey.length ≠ 32 then .error .invalidPayloadLength
        else .ok (formatByte, pubkey)

/-! ## Alphabet facts -/

theorem alpha_length : BASE58_ALPHABET.length = 58 := by decide

theorem alpha_indexOf_getD : ∀ i ∈ List.range 58,
    BASE58_ALPHABET.indexOf (BASE58_ALPHABET.getD i 0) = i := by decide

theorem alpha_getD_mem : ∀ i ∈ List.range 58,
    BASE58_ALPHABET.getD i 0 ∈ BASE58_ALPHABET := by decide

theorem alpha_getD_ne_one : ∀ i ∈ List.range 58,
    i ≠ 0 → BASE58_ALPHABET.getD i 0 ≠ 49 := by decide

theorem one_mem_alpha : (49 : Nat) ∈ BASE58_ALPHABET := by decide

theorem alpha_indexOf_one : BASE58_ALPHABET.indexOf 49 = 0 := by decide

/-! ## Base-58 digit parsing -/

theorem b58decodeNumAux_append (xs ys : List Nat) (acc : Nat) :
    b58decodeNumAux acc (xs ++ ys) =
      (b58decodeNumAux acc xs).bind (fun a => b58decodeNumAux a ys) := by
  induction xs generalizing acc with
  | nil => simp [b58decodeNumAux]
  | cons c rest ih =>
    simp only [List.cons_append, b58decodeNumAux]
    split
    · exact ih _
    · rfl

theorem b58decodeNumAux_encodeNum (n : Nat) : ∀ acc,
    b58decodeNumAux acc (b58encodeNum n) =
      some (acc * 58 ^ (b58encodeNum n).length + n) := by
  induction n using Nat.strong_induction_on with
  | _ n ih =>
    intro acc
    by_cases h : n = 0
    · subst h
      rw [b58encodeNum]
      simp [b58decodeNumAux]
    · rw [b58encodeNum]
      simp only [dif_neg h]
      have h58 : n % 58 < 58 := Nat.mod_lt _ (by omega)
      have hmem : BASE58_ALPHABET.getD (n % 58) 0 ∈ BASE58_ALPHABET :=
        alpha_getD_mem _ (List.mem_range.mpr h58)
      have hidx : BASE58_ALPHABET.indexOf (BASE58_ALPHABET.getD (n % 58) 0) = n % 58 :=
        alpha_indexOf_getD _ (List.mem_range.mpr h58)
      rw [b58decodeNumAux_append,
        ih (n / 58) (Nat.div_lt_self (Nat.pos_of_ne_zero h) (by omega)) acc]
      simp only [Option.bind, b58decodeNumAux, if_pos hmem, hidx,
        List.length_append, List.length_singleton]
      congr 1
      calc (acc * 58 ^ (b58encodeNum (n / 58)).length + n / 58) * 58 + n % 58
          = acc * (58 ^ (b58encodeNum (n / 58)).length * 58) + (58 * (n / 58) + n % 58) := by
            ring
        _ = acc * 58 ^ ((b58encodeNum (n / 58)).length + 1) + n := by
            rw [← pow_succ, Nat.div_add_mod]

theorem b58encodeNum_ne_nil (n : Nat) (h : n ≠ 0) : b58encodeNum n ≠ [] := by
  rw [b58encodeNum]
  simp [dif_neg h]

theorem b58encodeNum_headD_ne_one (n : Nat) : ∀ h : n ≠ 0,
    (b58encodeNum n).headD 0 ≠ 49 := by
  induction n using Nat.strong_induction_on with
  | _ n ih =>
    intro h
    rw [b58encodeNum]
    simp only [dif_neg h]
    by_cases hq : n / 58 = 0
    · have hlt : n < 58 := by
        rcases Nat.lt_or_ge n 58 with h' | h'
        · exact h'
        · exact absurd hq (by
            have : 1 ≤ n / 58 := Nat.one_le_div_iff (by omega) |>.mpr h'
            omega)
      have : n % 58 = n := Nat.mod_eq_of_lt hlt
      rw [hq, b58encodeNum]
      simp only [dif_pos rfl, List.nil_append, this]
      exact alpha_getD_ne_one n (List.mem_range.mpr hlt) h
    · have hne := b58encodeNum_ne_nil (n / 58) hq
      rcases List.exists_cons_of_ne_nil hne with ⟨c, cs, hcons⟩
      rw [hcons]
      simpa [hcons] using ih (n / 58) (Nat.div_lt_self (Nat.pos_of_ne_zero h) (by omega)) hq

theorem b58decodeNumAux_ones (k : Nat) :
    b58decodeNumAux 0 (List.replicate k 49) = some 0 := by
  induction k with
  | zero => simp [b58decodeNumAux]
  | succ k ih =>
    simp only [List.replicate_succ, b58decodeNumAux, if_pos one_mem_alpha, alpha_indexOf_one]
    simpa using ih

/-! ## Byte-string / number conversion facts -/

theorem beBytesToNat_eq (l : List Nat) : ∀ acc,
    List.foldl (fun a b => a * 256 + b) acc l = acc * 256 ^ l.length + beBytesToNat l := by
  induction l with
  | nil => intro acc; simp [beBytesToNat]
  | cons y u ih =>
    intro acc
    have h0 : beBytesToNat (y :: u) = y * 256 ^ u.length + beBytesToNat u := by
      simp only [beBytesToNat, List.foldl_cons]
      simpa using ih y
    simp only [List.foldl_cons]
    rw [ih (acc * 256 + y), h0, List.length_cons, pow_succ]
    ring

theorem beBytesToNat_cons (y : Nat) (u : List Nat) :
    beBytesToNat (y :: u) = y * 256 ^ u.length + beBytesToNat u := by
  simp only [beBytesToNat, List.foldl_cons]
  simpa using beBytesToNat_eq u y

theorem beBytesToNat_append (xs ys : List Nat) :
    beBytesToNat (xs ++ ys) = beBytesToNat xs * 256 ^ ys.length + beBytesToNat ys := by
  rw [beBytesToNat, List.foldl_append]
  exact beBytesToNat_eq ys _

theorem beBytesToNat_lt (l : List Nat) (h : ∀ b ∈ l, b < 256) :
    beBytesToNat l < 256 ^ l.length := by
  induction l with
  | nil => simp [beBytesToNat]
  | cons y u ih =>
    rw [beBytesToNat_cons, List.length_cons, pow_succ]
    have hy : y < 256 := h y (List.mem_cons_self _ _)
    have hu : beBytesToNat u < 256 ^ u.length := ih fun b hb => h b (List.mem_cons_of_mem _ hb)
    calc y * 256 ^ u.length + beBytesToNat u
        < y * 256 ^ u.length + 256 ^ u.length := by omega
      _ = (y + 1) * 256 ^ u.length := by ring
      _ ≤ 256 * 256 ^ u.length := Nat.mul_le_mul_right _ (by omega)
      _ = 256 ^ u.length * 256 := by ring

theorem beBytesToNat_replicate_zero (k : Nat) :
    beBytesToNat (List.replicate k 0) = 0 := by
  induction k with
  | zero => simp [beBytesToNat]
  | succ k ih => rw [List.replicate_succ, beBytesToNat_cons, ih]; simp

theorem beBytesToNat_ge (y : Nat) (u : List Nat) (hy : y ≠ 0) :
    256 ^ u.length ≤ beBytesToNat (y :: u) := by
  rw [beBytesToNat_cons]
  calc 256 ^ u.length = 1 * 256 ^ u.length := by ring
    _ ≤ y * 256 ^ u.length := Nat.mul_le_mul_right _ (by omega)
    _ ≤ y * 256 ^ u.length + beBytesToNat u := Nat.le_add_right _ _

theorem natToBEBytes_length (k : Nat) : ∀ n, (natToBEBytes k n).length = k := by
  induction k with
  | zero => intro n; rfl
  | succ k ih => intro n; simp [natToBEBytes, ih]

theorem natToBEBytes_mem_lt (k : Nat) : ∀ n, ∀ b ∈ natToBEBytes k n, b < 256 := by
  induction k with
  | zero => intro n b hb; simp [natToBEBytes] at hb
  | succ k ih =>
    intro n b hb
    simp only [natToBEBytes, List.mem_append, List.mem_singleton] at hb
    rcases hb with hb | hb
    · exact ih _ b hb
    · subst hb; exact Nat.mod_lt _ (by omega)

theorem natToBEBytes_beBytesToNat (l : List Nat) : (∀ b ∈ l, b < 256) →
    natToBEBytes l.length (beBytesToNat l) = l := by
  induction l using List.reverseRecOn with
  | nil => intro _; rfl
  | append_singleton xs b ih =>
    intro h
    have hb : b < 256 := h b (by simp)
    have hxs : ∀ x ∈ xs, x < 256 := fun x hx => h x (by simp [hx])
    have hval : beBytesToNat (xs ++ [b]) = beBytesToNat xs * 256 + b := by
      rw [beBytesToNat_append, beBytesToNat_cons]
      simp [beBytesToNat]
    rw [List.length_append, List.length_singleton, hval]
    simp only [natToBEBytes]
    have hdiv : (beBytesToNat xs * 256 + b) / 256 = beBytesToNat xs := by omega
    have hmod : (beBytesToNat xs * 256 + b) % 256 = b := by omega
    rw [hdiv, hmod, ih hxs]

theorem bitLength_byteLen (n k : Nat) (hlo : 256 ^ k ≤ n) (hhi : n < 256 ^ (k + 1)) :
    (bitLength n + 7) / 8 = k + 1 := by
  have hn : n ≠ 0 := by
    have : 1 ≤ 256 ^ k := Nat.one_le_pow _ _ (by omega)
    omega
  have h1 : 8 * k ≤ Nat.log2 n := by
    rw [Nat.le_log2 hn]
    calc 2 ^ (8 * k) = (2 ^ 8) ^ k := pow_mul 2 8 k
      _ = 256 ^ k := by norm_num
      _ ≤ n := hlo
  have h2 : Nat.log2 n < 8 * (k + 1) := by
    rw [Nat.log2_lt hn]
    calc n < 256 ^ (k + 1) := hhi
      _ = (2 ^ 8) ^ (k + 1) := by norm_num
      _ = 2 ^ (8 * (k + 1)) := (pow_mul 2 8 (k + 1)).symm
  rw [bitLength, if_neg hn]
  omega

/-! ## Base-58 round trip -/

theorem dropWhile_head_false {p : Nat → Bool} : ∀ (l : List Nat) (r : Nat) (rs : List Nat),
    l.dropWhile p = r :: rs → p r = false := by
  intro l
  induction l with
  | nil => intro r rs h; simp [List.dropWhile] at h
  | cons x t ih =>
    intro r rs h
    rw [List.dropWhile_cons] at h
    by_cases hx : p x
    · rw [if_pos hx] at h; exact ih _ _ h
    · rw [if_neg hx] at h
      cases h
      simpa using hx

theorem takeWhile_replicate_self {p : Nat → Bool} {a : Nat} (hp : p a = true) (k : Nat) :
    (List.replicate k a).takeWhile p = List.replicate k a := by
  induction k with
  | zero => rfl
  | succ k ih => simp [List.replicate_succ, List.takeWhile_cons, hp, ih]

theorem takeWhile_replicate_append {a : Nat} {l : List Nat} (p : Nat → Bool) (hp : p a = true)
    (hl : l ≠ []) (hh : p (l.headD 0) = false) : ∀ k : Nat,
    ((List.replicate k a ++ l).takeWhile p).length = k := by
  intro k
  induction k with
  | zero =>
    simp only [List.replicate, List.nil_append]
    rcases List.exists_cons_of_ne_nil hl with ⟨c, cs, rfl⟩
    simp only [List.headD_cons] at hh
    simp [List.takeWhile_cons, hh]
  | succ k ih =>
    rw [List.replicate_succ, List.cons_append, List.takeWhile_cons]
    simp only [hp, if_true]
    rw [List.length_cons, ih]

theorem b58encodeNum_zero : b58encodeNum 0 = [] := by
  rw [b58encodeNum]
  simp

/-- Evaluate `b58decode` once the digit parse is known to succeed. -/
theorem b58decode_eq (s : List Nat) (num : Nat) (h : b58decodeNumAux 0 s = some num) :
    b58decode s = .ok (List.replicate ((s.takeWhile (fun c => c == 49)).length) 0
      ++ natToBEBytes ((bitLength num + 7) / 8) num) := by
  unfold b58decode
  rw [h]

/-- Lemma behind claim C5: base-58 decoding inverts base-58 encoding on
every byte string, leading zero bytes included. -/
theorem b58_roundtrip (data : List Nat) (hdata : ∀ b ∈ data, b < 256) :
    b58decode (b58encode data) = .ok data := by
  have htake : data.takeWhile (fun b => b == 0) =
      List.replicate (data.takeWhile (fun b => b == 0)).length 0 :=
    List.eq_replicate_of_mem fun b hb => by simpa using List.mem_takeWhile_imp hb
  rcases hsplit : data.dropWhile (fun b => b == 0) with _ | ⟨r, rs⟩
  · -- every byte of `data` is zero
    have hdata_eq : data = List.replicate (data.takeWhile (fun b => b == 0)).length 0 := by
      conv_lhs => rw [← List.takeWhile_append_dropWhile (fun b => b == 0) data, hsplit]
      rw [List.append_nil]
      exact htake
    have hzero : beBytesToNat data = 0 := by
      rw [hdata_eq, beBytesToNat_replicate_zero]
    rw [b58encode, hzero, b58encodeNum_zero, List.append_nil]
    rw [b58decode_eq _ 0 (b58decodeNumAux_ones _)]
    rw [takeWhile_replicate_self (by simp)]
    simp only [List.length_replicate, bitLength, if_pos rfl]
    norm_num [natToBEBytes]
    exact hdata_eq.symm
  · -- `data` has a nonzero byte; `r` is the first one
    have hr : (r == 0) = false := dropWhile_head_false data r rs hsplit
    have hr' : r ≠ 0 := by simpa using hr
    have hrest_lt : ∀ b ∈ r :: rs, b < 256 := by
      intro b hb
      exact hdata b ((List.dropWhile_sublist _).subset (hsplit ▸ hb))
    have hn : beBytesToNat data = beBytesToNat (r :: rs) := by
      conv_lhs => rw [← List.takeWhile_append_dropWhile (fun b => b == 0) data, hsplit, htake]
      rw [beBytesToNat_append, beBytesToNat_replicate_zero]
      simp
    have hpos : 256 ^ rs.length ≤ beBytesToNat (r :: rs) := beBytesToNat_ge r rs hr'
    have hlt : beBytesToNat (r :: rs) < 256 ^ (rs.length + 1) := by
      have := beBytesToNat_lt (r :: rs) hrest_lt
      simpa using this
    have hne : beBytesToNat (r :: rs) ≠ 0 := by
      have h1 : 1 ≤ 256 ^ rs.length := Nat.one_le_pow _ _ (by omega)
      omega
    have hbl : (bitLength (beBytesToNat (r :: rs)) + 7) / 8 = rs.length + 1 :=
      bitLength_byteLen _ rs.length hpos hlt
    have hbytes : natToBEBytes (rs.length + 1) (beBytesToNat (r :: rs)) = r :: rs := by
      have := natToBEBytes_beBytesToNat (r :: rs) hrest_lt
      simpa using this
    have henc_ne : b58encodeNum (beBytesToNat (r :: rs)) ≠ [] := b58encodeNum_ne_nil _ hne
    have hhead : (((b58encodeNum (beBytesToNat (r :: rs))).headD 0) == 49) = false := by
      simpa using b58encodeNum_headD_ne_one _ hne
    have hparse : b58decodeNumAux 0
        (List.replicate ((data.takeWhile (fun b => b == 0)).length) 49
          ++ b58encodeNum (beBytesToNat (r :: rs))) = some (beBytesToNat (r :: rs)) := by
      rw [b58decodeNumAux_append, b58decodeNumAux_ones]
      simp [b58decodeNumAux_encodeNum]
    rw [b58encode, hn, b58decode_eq _ _ hparse]
    rw [takeWhile_replicate_append _ (by simp) henc_ne hhead, hbl, hbytes]
    conv_rhs => rw [← List.takeWhile_append_dropWhile (fun b => b == 0) data, hsplit, htake]

/-! ## BLAKE2b output shape -/

theorem blakeCompress_length (h block : List Nat) (t : Nat) (last : Bool) :
    (blakeCompress h block t last).length = 8 := by
  simp [blakeCompress]

theorem blake2bBlocks_length : ∀ (fuel : Nat) (h msg : List Nat) (off : Nat),
    msg.length ≤ fuel → (blake2bBlocks h msg off).length = 8 := by
  intro fuel
  induction fuel with
  | zero =>
    intro h msg off hle
    rw [blake2bBlocks, dif_neg (by omega : ¬ 128 < msg.length)]
    exact blakeCompress_length _ _ _ _
  | succ fuel ih =>
    intro h msg off hle
    rw [blake2bBlocks]
    by_cases hc : 128 < msg.length
    · rw [dif_pos hc]
      apply ih
      simp only [List.length_drop]
      omega
    · rw [dif_neg hc]
      exact blakeCompress_length _ _ _ _

theorem natToLEBytes_length (k : Nat) : ∀ n, (natToLEBytes k n).length = k := by
  induction k with
  | zero => intro n; rfl
  | succ k ih => intro n; simp [natToLEBytes, ih]

theorem natToLEBytes_mem_lt (k : Nat) : ∀ n, ∀ b ∈ natToLEBytes k n, b < 256 := by
  induction k with
  | zero => intro n b hb; simp [natToLEBytes] at hb
  | succ k ih =>
    intro n b hb
    simp only [natToLEBytes, List.mem_cons] at hb
    rcases hb with hb | hb
    · subst hb; exact Nat.mod_lt _ (by omega)
    · exact ih _ b hb

theorem flatten_map_length (l : List Nat) :
    ((l.map (natToLEBytes 8)).flatten).length = 8 * l.length := by
  induction l with
  | nil => rfl
  | cons x t ih =>
    simp only [List.map_cons, List.flatten_cons, List.length_append, natToLEBytes_length,
      List.length_cons, ih]
    ring

theorem blake2b_length (msg : List Nat) (d : Nat) (hd : d ≤ 64) :
    (blake2b msg d).length = d := by
  unfold blake2b
  rw [List.length_take, flatten_map_length, blake2bBlocks_length msg.length _ _ _ le_rfl]
  omega

theorem blake2b_mem_lt (msg : List Nat) (d : Nat) : ∀ b ∈ blake2b msg d, b < 256 := by
  intro b hb
  unfold blake2b at hb
  have hb' := List.mem_of_mem_take hb
  rcases List.mem_flatten.mp hb' with ⟨l, hl, hbl⟩
  rcases List.mem_map.mp hl with ⟨w, _, rfl⟩
  exact natToLEBytes_mem_lt 8 w b hbl

theorem domainHash_length (addr : List Nat) : (domainHash addr).length = 32 :=
  blake2b_length _ _ (by omega)

theorem domainHash_mem_lt (addr : List Nat) : ∀ b ∈ domainHash addr, b < 256 :=
  blake2b_mem_lt _ _

/-! ## Decoding an encoded address -/

theorem take_len_left (H ck : List Nat) (hH : H.length = 32) :
    (H ++ ck).take 32 = H := by
  rw [← hH]
  exact List.take_left H ck

theorem drop_len_left (H ck : List Nat) (hH : H.length = 32) :
    (H ++ ck).drop 32 = ck := by
  rw [← hH]
  exact List.drop_left H ck

/-- Lemma behind claim C1: decoding an address encoded with a single-byte
format prefix succeeds and recovers the format and the domain hash. -/
theorem decode_encode_single (addr : List Nat) (fmt : Nat) (hfmt : fmt < 64) :
    decode_ss58_hotkey (ss58FromBytes addr fmt) = .ok (fmt, domainHash addr) := by
  have hH : (domainHash addr).length = 32 := domainHash_length addr
  have hHlt := domainHash_mem_lt addr
  have hcklen : ((blake2b (ss58PreTag ++ (fmt :: domainHash addr)) 64).take 2).length = 2 := by
    rw [List.length_take, blake2b_length _ _ (by omega)]
    decide
  have hcklt : ∀ b ∈ (blake2b (ss58PreTag ++ (fmt :: domainHash addr)) 64).take 2, b < 256 :=
    fun b hb => blake2b_mem_lt _ _ b (List.mem_of_mem_take hb)
  have hfull_lt : ∀ b ∈ (fmt :: domainHash addr)
      ++ (blake2b (ss58PreTag ++ (fmt :: domainHash addr)) 64).take 2, b < 256 := by
    intro b hb
    rcases List.mem_append.mp hb with hb | hb
    · rcases List.mem_cons.mp hb with rfl | hb
      · omega
      · exact hHlt b hb
    · exact hcklt b hb
  have henc : ss58FromBytes addr fmt =
      b58encode ((fmt :: domainHash addr)
        ++ (blake2b (ss58PreTag ++ (fmt :: domainHash addr)) 64).take 2) := by
    unfold ss58FromBytes
    rw [formatPrefixBytes, if_pos hfmt]
    rfl
  have hlen : ((fmt :: domainHash addr)
      ++ (blake2b (ss58PreTag ++ (fmt :: domainHash addr)) 64).take 2).length = 35 := by
    simp [hH, hcklen]
  rw [henc]
  unfold decode_ss58_hotkey
  rw [b58_roundtrip _ hfull_lt]
  simp only [hlen]
  rw [if_neg (by omega : ¬ (35 : Nat) < 34)]
  simp only [List.cons_append, List.getD_cons_zero]
  rw [if_neg (by omega : ¬ 64 ≤ fmt)]
  rw [show (35 : Nat) - 2 = 32 + 1 from rfl, show (35 : Nat) - 3 = 32 from rfl]
  rw [List.take_succ_cons, take_len_left _ _ hH]
  rw [List.drop_succ_cons, drop_len_left _ _ hH]
  rw [show (1 : Nat) = 0 + 1 from rfl, List.drop_succ_cons, List.drop_zero]
  rw [take_len_left _ _ hH]
  rw [if_neg (by simp : ¬ (blake2b (ss58PreTag ++ (fmt :: domainHash addr)) 64).take 2
      ≠ (blake2b (ss58PreTag ++ (fmt :: domainHash addr)) 64).take 2)]
  rw [if_neg (by simp [hH] : ¬ (domainHash addr).length ≠ 32)]

/-- Bit 6 of the low prefix byte is forced set, so the byte is at least 64. -/
theorem lor64_mod256_ge (fmt : Nat) : 64 ≤ (fmt ||| 64) % 256 := by
  have h64 : Nat.testBit 64 6 = true := by decide
  have h6 : ((fmt ||| 64) % 256).testBit 6 = true := by
    rw [show (256 : Nat) = 2 ^ 8 from rfl, Nat.testBit_mod_two_pow]
    simp [Nat.testBit_lor, h64]
  rw [Nat.testBit_to_div_mod] at h6
  have := of_decide_eq_true h6
  omega

/-- Lemma behind claim C7: an address encoded with a two-byte format prefix
is rejected by the decoder. -/
theorem decode_encode_two_byte (addr : List Nat) (fmt : Nat) (hfmt : 64 ≤ fmt) :
    decode_ss58_hotkey (ss58FromBytes addr fmt) = .error .unsupportedFormat := by
  have hH : (domainHash addr).length = 32 := domainHash_length addr
  have hHlt := domainHash_mem_lt addr
  set b0 := (fmt ||| 64) % 256 with hb0
  set b1 := ((fmt ||| 64) >>> 8) % 256 with hb1
  have hpfx : formatPrefixBytes fmt = [b0, b1] := by
    rw [formatPrefixBytes, if_neg (by omega)]
  have henc : ss58FromBytes addr fmt =
      b58encode ((b0 :: b1 :: domainHash addr)
        ++ (blake2b (ss58PreTag ++ (b0 :: b1 :: domainHash addr)) 64).take 2) := by
    unfold ss58FromBytes
    rw [hpfx]
    rfl
  have hcklt : ∀ b ∈ (blake2b (ss58PreTag ++ (b0 :: b1 :: domainHash addr)) 64).take 2, b < 256 :=
    fun b hb => blake2b_mem_lt _ _ b (List.mem_of_mem_take hb)
  have hfull_lt : ∀ b ∈ (b0 :: b1 :: domainHash addr)
      ++ (blake2b (ss58PreTag ++ (b0 :: b1 :: domainHash addr)) 64).take 2, b < 256 := by
    intro b hb
    rcases List.mem_append.mp hb with hb | hb
    · rcases List.mem_cons.mp hb with rfl | hb
      · exact Nat.mod_lt _ (by omega)
      · rcases List.mem_cons.mp hb with rfl | hb
        · exact Nat.mod_lt _ (by omega)
        · exact hHlt b hb
    · exact hcklt b hb
  have hcklen : ((blake2b (ss58PreTag ++ (b0 :: b1 :: domainHash addr)) 64).take 2).length = 2 := by
    rw [List.length_take, blake2b_length _ _ (by omega)]
    decide
  rw [henc]
  unfold decode_ss58_hotkey
  rw [b58_roundtrip _ hfull_lt]
  simp only [List.cons_append]
  have hlen : (b0 :: b1 :: (domainHash addr
      ++ (blake2b (ss58PreTag ++ (b0 :: b1 :: domainHash addr)) 64).take 2)).length = 36 := by
    simp only [List.length_cons, List.length_append, hH, hcklen]
  rw [hlen]
  rw [if_neg (by omega : ¬ (36 : Nat) < 34)]
  simp only [List.getD_cons_zero]
  rw [if_pos (show 64 ≤ b0 by rw [hb0]; exact lor64_mod256_ge fmt)]

/-- Evaluate `decode_ss58_hotkey` once the base-58 layer is known to
succeed. -/
theorem decode_ss58_eq_of_ok (s d : List Nat) (h : b58decode s = .ok d) :
    decode_ss58_hotkey s =
      if d.length < 34 then .error .tooShort
      else if 64 ≤ d.getD 0 0 then .error .unsupportedFormat
      else if d.drop (d.length - 2) ≠ (blake2b (ss58PreTag ++ d.take (d.length - 2)) 64).take 2
        then .error .checksumMismatch
      else if ((d.drop 1).take (d.length - 3)).length ≠ 32 then .error .invalidPayloadLength
      else .ok (d.getD 0 0, (d.drop 1).take (d.length - 3)) := by
  unfold decode_ss58_hotkey
  rw [h]

theorem decode_ss58_of_b58_error (s : List Nat) (e : DecodeError)
    (h : b58decode s = .error e) : decode_ss58_hotkey s = .error e := by
  unfold decode_ss58_hotkey
  rw [h]

theorem b58decodeNumAux_none (s : List Nat) (c : Nat) (hc : c ∈ s)
    (hval : c ∉ BASE58_ALPHABET) : ∀ acc, b58decodeNumAux acc s = none := by
  induction s with
  | nil => cases hc
  | cons x t ih =>
    intro acc
    simp only [b58decodeNumAux]
    by_cases hx : x ∈ BASE58_ALPHABET
    · rw [if_pos hx]
      rcases List.mem_cons.mp hc with rfl | hc'
      · exact absurd hx hval
      · exact ih hc' _
    · rw [if_neg hx]

theorem b58decode_invalid (s : List Nat) (h : b58decodeNumAux 0 s = none) :
    b58decode s = .error .invalidCharacter := by
  unfold b58decode
  rw [h]

theorem b58decodeNumAux_isSome (s : List Nat) (hs : ∀ c ∈ s, c ∈ BASE58_ALPHABET) :
    ∀ acc, ∃ num, b58decodeNumAux acc s = some num := by
  induction s with
  | nil => intro acc; exact ⟨acc, rfl⟩
  | cons x t ih =>
    intro acc
    have hx : x ∈ BASE58_ALPHABET := hs x (List.mem_cons_self _ _)
    rcases ih (fun c hc => hs c (List.mem_cons_of_mem _ hc))
      (acc * 58 + BASE58_ALPHABET.indexOf x) with ⟨num, hnum⟩
    exact ⟨num, by simp only [b58decodeNumAux, if_pos hx]; exact hnum⟩

theorem b58decodeNumAux_lt : ∀ (s : List Nat) (acc num : Nat),
    b58decodeNumAux acc s = some num → num < (acc + 1) * 58 ^ s.length := by
  intro s
  induction s with
  | nil =>
    intro acc num h
    simp only [b58decodeNumAux, Option.some.injEq] at h
    subst h
    simp
  | cons x t ih =>
    intro acc num h
    simp only [b58decodeNumAux] at h
    by_cases hx : x ∈ BASE58_ALPHABET
    · rw [if_pos hx] at h
      have hidx : BASE58_ALPHABET.indexOf x < 58 := by
        have := List.indexOf_lt_length.mpr hx
        rwa [alpha_length] at this
      calc num < (acc * 58 + BASE58_ALPHABET.indexOf x + 1) * 58 ^ t.length := ih _ _ h
        _ ≤ ((acc + 1) * 58) * 58 ^ t.length := Nat.mul_le_mul_right _ (by omega)
        _ = (acc + 1) * (58 ^ t.length * 58) := by ring
        _ = (acc + 1) * 58 ^ (t.length + 1) := by rw [← pow_succ]
        _ = (acc + 1) * 58 ^ (x :: t).length := by rw [List.length_cons]
    · rw [if_neg hx] at h
      cases h

theorem byteLen_le (num len : Nat) (h : num < 256 ^ len) : (bitLength num + 7) / 8 ≤ len := by
  by_cases h0 : num = 0
  · subst h0
    simp [bitLength]
  · have hlog : Nat.log2 num < 8 * len := by
      rw [Nat.log2_lt h0]
      calc num < 256 ^ len := h
        _ = (2 ^ 8) ^ len := by norm_num
        _ = 2 ^ (8 * len) := (pow_mul 2 8 len).symm
    rw [bitLength, if_neg h0]
    omega

/-- A string of alphabet characters always base-58 decodes, to at most
twice as many bytes as it has characters. -/
theorem b58decode_ok_of_valid (s : List Nat) (hs : ∀ c ∈ s, c ∈ BASE58_ALPHABET) :
    ∃ d, b58decode s = .ok d ∧ d.length ≤ 2 * s.length := by
  rcases b58decodeNumAux_isSome s hs 0 with ⟨num, hnum⟩
  have hlt : num < 58 ^ s.length := by simpa using b58decodeNumAux_lt s 0 num hnum
  have hlt' : num < 256 ^ s.length := lt_of_lt_of_le hlt (Nat.pow_le_pow_left (by omega) _)
  refine ⟨_, b58decode_eq s num hnum, ?_⟩
  rw [List.length_append, List.length_replicate, natToBEBytes_length]
  have h1 : (s.takeWhile (fun c => c == 49)).length ≤ s.length :=
    (List.takeWhile_sublist _).length_le
  have h2 : (bitLength num + 7) / 8 ≤ s.length := byteLen_le num s.length hlt'
  omega

/-- Lemma behind claim C10: a successful decode forces the base-58 layer to
have produced exactly 35 bytes. -/
theorem decode_ok_length (s : List Nat) (fb : Nat) (pk : List Nat)
    (h : decode_ss58_hotkey s = .ok (fb, pk)) :
    ∃ d, b58decode s = .ok d ∧ d.length = 35 := by
  rcases hb : b58decode s with e | d
  · rw [decode_ss58_of_b58_error s e hb] at h
    cases h
  · rw [decode_ss58_eq_of_ok s d hb] at h
    by_cases h1 : d.length < 34
    · rw [if_pos h1] at h; cases h
    · rw [if_neg h1] at h
      by_cases h2 : 64 ≤ d.getD 0 0
      · rw [if_pos h2] at h; cases h
      · rw [if_neg h2] at h
        by_cases h3 : d.drop (d.length - 2)
            ≠ (blake2b (ss58PreTag ++ d.take (d.length - 2)) 64).take 2
        · rw [if_pos h3] at h; cases h
        · rw [if_neg h3] at h
          by_cases h4 : ((d.drop 1).take (d.length - 3)).length ≠ 32
          · rw [if_pos h4] at h; cases h
          · refine ⟨d, rfl, ?_⟩
            rw [List.length_take, List.length_drop] at h4
            omega

/-! ## Hex parsing and case-folding -/

theorem hexDigitVal_pyLower (c : Nat) : hexDigitVal? (pyLower c) = hexDigitVal? c := by
  unfold pyLower hexDigitVal?
  split_ifs <;> first
    | rfl
    | (exfalso; omega)

theorem isAsciiWS_false_of_ge (c : Nat) (h : 33 ≤ c) : isAsciiWS c = false := by
  unfold isAsciiWS
  rw [beq_eq_false_iff_ne.mpr (by omega : c ≠ 32), decide_eq_false (by omega : ¬ c ≤ 13),
    Bool.and_false, Bool.or_false]

theorem isAsciiWS_pyLower (c : Nat) : isAsciiWS (pyLower c) = isAsciiWS c := by
  unfold pyLower
  split_ifs with h
  · rw [isAsciiWS_false_of_ge (c + 32) (by omega), isAsciiWS_false_of_ge c (by omega)]
  · rfl

theorem filter_ws_map_pyLower (s : List Nat) :
    (s.map pyLower).filter (fun c => !isAsciiWS c) =
      (s.filter (fun c => !isAsciiWS c)).map pyLower := by
  induction s with
  | nil => rfl
  | cons c t ih =>
    simp only [List.map_cons, List.filter_cons, isAsciiWS_pyLower]
    by_cases h : isAsciiWS c
    · simp [h, ih]
    · simp [h, ih]

theorem hexPairsToBytes_map_pyLower : ∀ (n : Nat) (s : List Nat), s.length ≤ n →
    hexPairsToBytes (s.map pyLower) = hexPairsToBytes s := by
  intro n
  induction n with
  | zero =>
    intro s hs
    have : s = [] := List.eq_nil_of_length_eq_zero (by omega)
    subst this
    rfl
  | succ n ih =>
    intro s hs
    rcases s with _ | ⟨a, _ | ⟨b, rest⟩⟩
    · rfl
    · rfl
    · simp only [List.length_cons] at hs
      simp only [List.map_cons, hexPairsToBytes, hexDigitVal_pyLower,
        ih rest (by omega)]

theorem bytesFromHex_map_pyLower (s : List Nat) :
    bytesFromHex (s.map pyLower) = bytesFromHex s := by
  unfold bytesFromHex
  rw [filter_ws_map_pyLower, hexPairsToBytes_map_pyLower _ _ le_rfl]

theorem isHexDigit_not_ws (c : Nat) (h : isHexDigit c = true) : isAsciiWS c = false := by
  have hc : 48 ≤ c := by
    unfold isHexDigit hexDigitVal? at h
    split_ifs at h <;> first | omega | simp at h
  unfold isAsciiWS
  simp only [Bool.or_eq_false_iff, Bool.and_eq_false_iff, beq_eq_false_iff_ne,
    decide_eq_false_iff_not]
  omega

theorem hexPairsToBytes_isSome : ∀ (n : Nat) (s : List Nat), s.length ≤ n →
    s.length % 2 = 0 → (∀ c ∈ s, isHexDigit c = true) →
    ∃ bs, hexPairsToBytes s = some bs := by
  intro n
  induction n with
  | zero =>
    intro s hs _ _
    have : s = [] := List.eq_nil_of_length_eq_zero (by omega)
    subst this
    exact ⟨[], rfl⟩
  | succ n ih =>
    intro s hs hev hhex
    rcases s with _ | ⟨a, _ | ⟨b, rest⟩⟩
    · exact ⟨[], rfl⟩
    · simp at hev
    · have ha : (hexDigitVal? a).isSome = true := by
        simpa [isHexDigit] using hhex a (by simp)
      have hb : (hexDigitVal? b).isSome = true := by
        simpa [isHexDigit] using hhex b (by simp)
      rcases Option.isSome_iff_exists.mp ha with ⟨x, hx⟩
      rcases Option.isSome_iff_exists.mp hb with ⟨y, hy⟩
      simp only [List.length_cons] at hs hev
      rcases ih rest (by omega) (by omega) (fun c hc => hhex c (by simp [hc])) with ⟨tail, htail⟩
      exact ⟨(x * 16 + y) :: tail, by simp only [hexPairsToBytes, hx, hy, htail]⟩

theorem bytesFromHex_isSome (s : List Nat) (hev : s.length % 2 = 0)
    (hhex : ∀ c ∈ s, isHexDigit c = true) : ∃ bs, bytesFromHex s = some bs := by
  unfold bytesFromHex
  rw [List.filter_eq_self.mpr (fun c hc => by simp [isHexDigit_not_ws c (hhex c hc)])]
  exact hexPairsToBytes_isSome s.length s le_rfl hev hhex

/-! ## Claim theorems -/

/-- C1: Round trip: for every 20-byte EVM address and every format in 0..63,
decoding the string produced by the encoder succeeds, the recovered format
byte equals the format, and the recovered payload is the 32-byte BLAKE2b
digest of the tag `"evm:"` concatenated with the address bytes
(`domainHash`). -/
theorem claim_C1 (addr : List Nat) (fmt : Nat) (hlen : addr.length = 20)
    (hbytes : ∀ b ∈ addr, b < 256) (hfmt : fmt < 64) :
    decode_ss58_hotkey (ss58FromBytes addr fmt) = .ok (fmt, domainHash addr)
      ∧ (domainHash addr).length = 32 :=
  ⟨decode_encode_single addr fmt hfmt, domainHash_length addr⟩

/-- Witness for C1: the zero address with format 42. -/
theorem claim_C1_witness :
    decode_ss58_hotkey (ss58FromBytes (List.replicate 20 0) 42)
        = .ok (42, domainHash (List.replicate 20 0))
      ∧ (domainHash (List.replicate 20 0)).length = 32 :=
  claim_C1 (List.replicate 20 0) 42 (by decide) (by decide) (by decide)

/-- C2 (code bug): the encoder never rejects formats ≥ 16384.  On the
40-hex-digit zero address with format 16384 it returns a string instead of
failing, and for every address the format-16384 encoding collides with the
format-16448 encoding because the two-byte prefix is silently truncated. -/
theorem claim_C2_code_bug :
    (h160_to_ss58 ([48, 120] ++ List.replicate 40 48) 16384).isOk = true
      ∧ ∀ addr : List Nat, ss58FromBytes addr 16384 = ss58FromBytes addr 16448 := by
  constructor
  · decide
  · intro addr
    unfold ss58FromBytes
    have h : formatPrefixBytes 16384 = formatPrefixBytes 16448 := by decide
    rw [h]

/-- C5: the base-58 encoder is the big-endian repeated-division digit string
preceded by one `'1'` (code 49) per leading zero byte, and decoding inverts
it exactly on every byte string, preserving leading zero bytes. -/
theorem claim_C5 (data : List Nat) (h : ∀ b ∈ data, b < 256) :
    b58encode data = List.replicate ((data.takeWhile (fun b => b == 0)).length) 49
        ++ b58encodeNum (beBytesToNat data)
      ∧ b58decode (b58encode data) = .ok data :=
  ⟨rfl, b58_roundtrip data h⟩

/-- Witness for C5: a byte string with leading zero bytes. -/
theorem claim_C5_witness : b58decode (b58encode [0, 0, 7]) = .ok [0, 0, 7] :=
  (claim_C5 [0, 0, 7] (by decide)).2

/-- C4: on encode the checksum is the first 2 bytes of the 64-byte BLAKE2b
digest of `"SS58PRE" ++ (prefix ++ digest)`; on decode the checksum is
recomputed over all decoded bytes but the last two, and (after the base-58,
length and format checks pass) decode fails with `ChecksumMismatch` exactly
when the recomputation disagrees with the trailing 2 bytes. -/
theorem claim_C4 (addr : List Nat) (fmt : Nat) (s d : List Nat)
    (hok : b58decode s = .ok d) (hmin : 34 ≤ d.length) (hfb : d.getD 0 0 < 64) :
    ss58FromBytes addr fmt = b58encode ((formatPrefixBytes fmt ++ domainHash addr)
        ++ (blake2b (ss58PreTag ++ (formatPrefixBytes fmt ++ domainHash addr)) 64).take 2)
      ∧ (decode_ss58_hotkey s = .error .checksumMismatch ↔
          d.drop (d.length - 2) ≠ (blake2b (ss58PreTag ++ d.take (d.length - 2)) 64).take 2) := by
  constructor
  · rfl
  · rw [decode_ss58_eq_of_ok s d hok, if_neg (by omega), if_neg (by omega)]
    by_cases hc : d.drop (d.length - 2)
        ≠ (blake2b (ss58PreTag ++ d.take (d.length - 2)) 64).take 2
    · rw [if_pos hc]
      exact iff_of_true rfl hc
    · rw [if_neg hc]
      by_cases hp : ((d.drop 1).take (d.length - 3)).length ≠ 32
      · rw [if_pos hp]
        exact iff_of_false (by decide) hc
      · rw [if_neg hp]
        exact iff_of_false (fun h => Except.noConfusion h) hc

/-- Witness for C4: a 35-character all-`'1'` input passes the base-58,
length and format checks, and its checksum test is the stated
recomputation. -/
theorem claim_C4_witness :
    decode_ss58_hotkey (List.replicate 35 49) = .error .checksumMismatch ↔
      (List.replicate 35 0).drop ((List.replicate 35 0).length - 2)
        ≠ (blake2b (ss58PreTag
            ++ (List.replicate 35 0).take ((List.replicate 35 0).length - 2)) 64).take 2 :=
  (claim_C4 (List.replicate 20 0) 42 (List.replicate 35 49) (List.replicate 35 0)
    (by decide) (by decide) (by decide)).2

/-- C7: for every input whose base-58 decoding has at least 34 bytes, decode
fails with `UnsupportedFormat` exactly when the first decoded byte is ≥ 64;
in particular every address encoded with a two-byte prefix (format ≥ 64) is
rejected by the decoder. -/
theorem claim_C7 :
    (∀ s d : List Nat, b58decode s = .ok d → 34 ≤ d.length →
      (decode_ss58_hotkey s = .error .unsupportedFormat ↔ 64 ≤ d.getD 0 0))
    ∧ ∀ (addr : List Nat) (fmt : Nat), 64 ≤ fmt → fmt < 16384 →
      decode_ss58_hotkey (ss58FromBytes addr fmt) = .error .unsupportedFormat := by
  constructor
  · intro s d hok hmin
    rw [decode_ss58_eq_of_ok s d hok, if_neg (by omega)]
    by_cases hf : 64 ≤ d.getD 0 0
    · rw [if_pos hf]
      exact iff_of_true rfl hf
    · rw [if_neg hf]
      refine iff_of_false ?_ hf
      by_cases hc : d.drop (d.length - 2)
          ≠ (blake2b (ss58PreTag ++ d.take (d.length - 2)) 64).take 2
      · rw [if_pos hc]; decide
      · rw [if_neg hc]
        by_cases hp : ((d.drop 1).take (d.length - 3)).length ≠ 32
        · rw [if_pos hp]; decide
        · rw [if_neg hp]
          exact fun h => Except.noConfusion h
  · intro addr fmt h1 _
    exact decode_encode_two_byte addr fmt h1

/-- Witness for C7: a 34-character all-`'1'` input (format byte 0) and the
zero address encoded with format 100. -/
theorem claim_C7_witness :
    (decode_ss58_hotkey (List.replicate 34 49) = .error .unsupportedFormat ↔
      64 ≤ (List.replicate 34 0).getD 0 0)
    ∧ decode_ss58_hotkey (ss58FromBytes (List.replicate 20 0) 100)
        = .error .unsupportedFormat :=
  ⟨claim_C7.1 (List.replicate 34 49) (List.replicate 34 0) (by decide) (by decide),
   claim_C7.2 (List.replicate 20 0) 100 (by decide) (by decide)⟩

/-- C8: an input containing a character outside the base-58 alphabet fails
with `InvalidCharacter`; an input (of alphabet characters) whose decoding is
shorter than 34 bytes fails with `TooShort`; in particular every
10-character valid-alphabet string fails with `TooShort`. -/
theorem claim_C8 :
    (∀ s : List Nat, (∃ c ∈ s, c ∉ BASE58_ALPHABET) →
      decode_ss58_hotkey s = .error .invalidCharacter)
    ∧ (∀ s d : List Nat, b58decode s = .ok d → d.length < 34 →
      decode_ss58_hotkey s = .error .tooShort)
    ∧ (∀ s : List Nat, s.length = 10 → (∀ c ∈ s, c ∈ BASE58_ALPHABET) →
      decode_ss58_hotkey s = .error .tooShort) := by
  have h2 : ∀ s d : List Nat, b58decode s = .ok d → d.length < 34 →
      decode_ss58_hotkey s = .error .tooShort := by
    intro s d hok hlt
    rw [decode_ss58_eq_of_ok s d hok, if_pos hlt]
  refine ⟨?_, h2, ?_⟩
  · rintro s ⟨c, hc, hval⟩
    exact decode_ss58_of_b58_error s _ (b58decode_invalid s (b58decodeNumAux_none s c hc hval 0))
  · intro s hlen hval
    rcases b58decode_ok_of_valid s hval with ⟨d, hok, hle⟩
    exact h2 s d hok (by omega)

/-- Witness for C8: the one-character string `"0"` (code 48, not in the
alphabet) and the 10-character string `"2222222222"`. -/
theorem claim_C8_witness :
    decode_ss58_hotkey [48] = .error .invalidCharacter
      ∧ decode_ss58_hotkey (List.replicate 10 50) = .error .tooShort :=
  ⟨claim_C8.1 [48] ⟨48, by decide, by decide⟩,
   claim_C8.2.2 (List.replicate 10 50) (by decide) (by decide)⟩

/-- C10: every successful decode comes from a base-58 layer of exactly
35 bytes; an input decoding to exactly 34 bytes passes the `TooShort` check
but always fails later, with `UnsupportedFormat`, `ChecksumMismatch` or
`InvalidPayloadLength` (its payload slice would have 31 bytes). -/
theorem claim_C10 :
    (∀ (s : List Nat) (fb : Nat) (pk : List Nat),
      decode_ss58_hotkey s = .ok (fb, pk) → ∃ d, b58decode s = .ok d ∧ d.length = 35)
    ∧ ∀ s d : List Nat, b58decode s = .ok d → d.length = 34 →
      decode_ss58_hotkey s = .error .unsupportedFormat
        ∨ decode_ss58_hotkey s = .error .checksumMismatch
        ∨ decode_ss58_hotkey s = .error .invalidPayloadLength := by
  constructor
  · exact decode_ok_length
  · intro s d hok h34
    rw [decode_ss58_eq_of_ok s d hok, if_neg (by omega)]
    by_cases hf : 64 ≤ d.getD 0 0
    · rw [if_pos hf]
      exact .inl rfl
    · rw [if_neg hf]
      by_cases hc : d.drop (d.length - 2)
          ≠ (blake2b (ss58PreTag ++ d.take (d.length - 2)) 64).take 2
      · rw [if_pos hc]
        exact .inr (.inl rfl)
      · rw [if_neg hc]
        have hp : ((d.drop 1).take (d.length - 3)).length ≠ 32 := by
          rw [List.length_take, List.length_drop, h34]
          omega
        rw [if_pos hp]
        exact .inr (.inr rfl)

/-- Witness for C10: the encoding of the zero address decodes from exactly
35 base-58 bytes, and a 34-character all-`'1'` input (34 decoded bytes)
fails with one of the three stated errors. -/
theorem claim_C10_witness :
    (∃ d, b58decode (ss58FromBytes (List.replicate 20 0) 42) = .ok d ∧ d.length = 35)
    ∧ (decode_ss58_hotkey (List.replicate 34 49) = .error .unsupportedFormat
        ∨ decode_ss58_hotkey (List.replicate 34 49) = .error .checksumMismatch
        ∨ decode_ss58_hotkey (List.replicate 34 49) = .error .invalidPayloadLength) :=
  ⟨claim_C10.1 (ss58FromBytes (List.replicate 20 0) 42) 42 (domainHash (List.replicate 20 0))
      (decode_encode_single (List.replicate 20 0) 42 (by decide)),
   claim_C10.2 (List.replicate 34 49) (List.replicate 34 0) (by decide) (by decide)⟩

/-- C3: format-prefix packing: for a format below 64 the prefix is the single
byte equal to the format; for 64 ≤ format < 16384 it is exactly two bytes,
the low byte of `format ||| 0x40` first and then the high byte — little
endian with bit 6 of the low byte forced set, so that the two bytes
reconstruct `format ||| 0x40`. -/
theorem claim_C3 (fmt : Nat) :
    (fmt < 64 → formatPrefixBytes fmt = [fmt])
    ∧ (64 ≤ fmt → fmt < 16384 →
        formatPrefixBytes fmt = [(fmt ||| 64) % 256, ((fmt ||| 64) >>> 8) % 256]
        ∧ (formatPrefixBytes fmt).length = 2
        ∧ ((formatPrefixBytes fmt).getD 0 0).testBit 6 = true
        ∧ (formatPrefixBytes fmt).getD 0 0 + 256 * (formatPrefixBytes fmt).getD 1 0
            = fmt ||| 64) := by
  constructor
  · intro h
    rw [formatPrefixBytes, if_pos h]
  · intro h1 h2
    have hpfx : formatPrefixBytes fmt = [(fmt ||| 64) % 256, ((fmt ||| 64) >>> 8) % 256] := by
      rw [formatPrefixBytes, if_neg (by omega)]
    refine ⟨hpfx, by rw [hpfx]; rfl, ?_, ?_⟩
    · rw [hpfx]
      simp only [List.getD_cons_zero]
      rw [show (256 : Nat) = 2 ^ 8 from rfl, Nat.testBit_mod_two_pow]
      have h64 : Nat.testBit 64 6 = true := by decide
      simp [Nat.testBit_lor, h64]
    · rw [hpfx]
      simp only [List.getD_cons_zero, List.getD_cons_succ]
      have hlt : fmt ||| 64 < 65536 := by
        calc fmt ||| 64 = Nat.bitwise or fmt 64 := rfl
          _ < 2 ^ 16 := Nat.bitwise_lt (by omega) (by norm_num)
          _ = 65536 := by norm_num
      rw [Nat.shiftRight_eq_div_pow]
      have h256 : (2 : Nat) ^ 8 = 256 := by norm_num
      rw [h256]
      omega

/-- Witness for C3: the boundary formats 63 (one byte) and 64 (two bytes,
bit 6 set in the low byte). -/
theorem claim_C3_witness :
    formatPrefixBytes 63 = [63]
      ∧ formatPrefixBytes 64 = [(64 ||| 64) % 256, ((64 ||| 64) >>> 8) % 256]
      ∧ ((formatPrefixBytes 64).getD 0 0).testBit 6 = true :=
  ⟨(claim_C3 63).1 (by decide),
   ((claim_C3 64).2 (by decide) (by decide)).1,
   ((claim_C3 64).2 (by decide) (by decide)).2.2.1⟩

/-- C6 counterexample: the 40-character input `"zzz…z"` (code 122) is not a
string of 40 hex characters, yet the encoder fails with the hex-parse error
(`ValueError` from `bytes.fromhex`), not with `InvalidAddressLength` as the
claim's "exactly when" requires. -/
theorem claim_C6_counterexample :
    h160_to_ss58 (List.replicate 40 122) 42 = .error .invalidHex
      ∧ ¬ (∀ c ∈ List.replicate 40 122, isHexDigit c = true) := by
  constructor
  · decide
  · decide

/-- C6 (amended): the encoder lower-cases and strips a leading `"0x"`
before validating; it fails with `InvalidAddressLength` exactly when the
remaining string's length differs from 40; a 40-character remainder of hex
digits (accepted case-insensitively) encodes successfully, while a
40-character remainder that `bytes.fromhex` rejects fails with the
hex-parse error instead. -/
theorem claim_C6_amended (s : List Nat) (fmt : Nat) :
    (h160_to_ss58 s fmt = .error .invalidAddressLength ↔
      (stripHexMarker (s.map pyLower)).length ≠ 40)
    ∧ ((stripHexMarker (s.map pyLower)).length = 40 →
        (∀ c ∈ stripHexMarker (s.map pyLower), isHexDigit c = true) →
        (h160_to_ss58 s fmt).isOk = true)
    ∧ ((stripHexMarker (s.map pyLower)).length = 40 →
        bytesFromHex (stripHexMarker (s.map pyLower)) = none →
        h160_to_ss58 s fmt = .error .invalidHex) := by
  refine ⟨?_, ?_, ?_⟩
  · unfold h160_to_ss58
    by_cases h : (stripHexMarker (s.map pyLower)).length ≠ 40
    · rw [if_pos h]
      exact iff_of_true rfl h
    · rw [if_neg h]
      refine iff_of_false ?_ h
      rcases hb : bytesFromHex (stripHexMarker (s.map pyLower)) with _ | bs
      · intro hx
        injection hx with h
        exact EncodeError.noConfusion h
      · exact fun hx => Except.noConfusion hx
  · intro hlen hhex
    unfold h160_to_ss58
    rw [if_neg (by omega)]
    rcases bytesFromHex_isSome _ (by rw [hlen]) hhex with ⟨bs, hbs⟩
    rw [hbs]
    rfl
  · intro hlen hnone
    unfold h160_to_ss58
    rw [if_neg (by omega), hnone]

/-- Witness for C6 (amended): the input `"0x" ++ "a"*40`. -/
theorem claim_C6_amended_witness :
    (h160_to_ss58 ([48, 120] ++ List.replicate 40 97) 42 = .error .invalidAddressLength ↔
      (stripHexMarker (([48, 120] ++ List.replicate 40 97).map pyLower)).length ≠ 40)
    ∧ (h160_to_ss58 ([48, 120] ++ List.replicate 40 97) 42).isOk = true :=
  ⟨(claim_C6_amended ([48, 120] ++ List.replicate 40 97) 42).1,
   (claim_C6_amended ([48, 120] ++ List.replicate 40 97) 42).2.1 (by decide) (by decide)⟩

/-- C9: the shared-module encoder (`tools/h160_to_ss58.py`) and the inlined
encoder (`tools/generate_h160_keypair.py`) return the same SS58 string on
every `"0x"`-prefixed string of exactly 40 hex digits, for every format. -/
theorem claim_C9 (s : List Nat) (fmt : Nat) (hpre : s.take 2 = [48, 120])
    (hlen : (s.drop 2).length = 40) (hhex : ∀ c ∈ s.drop 2, isHexDigit c = true) :
    h160_to_ss58 s fmt = h160_to_ss58_inlined s fmt := by
  rcases s with _ | ⟨c0, s1⟩
  · simp at hpre
  rcases s1 with _ | ⟨c1, rest⟩
  · simp at hpre
  have hc : c0 = 48 ∧ c1 = 120 := by simpa using hpre
  rcases hc with ⟨rfl, rfl⟩
  have hlen' : rest.length = 40 := hlen
  have hhex' : ∀ c ∈ rest, isHexDigit c = true := hhex
  have hmap : pyLower 48 = 48 ∧ pyLower 120 = 120 := by decide
  have hstrip : stripHexMarker ((48 :: 120 :: rest).map pyLower) = rest.map pyLower := by
    unfold stripHexMarker
    simp only [List.map_cons, hmap.1, hmap.2]
    rw [if_pos (show List.take 2 (48 :: 120 :: List.map pyLower rest) = [48, 120] from rfl)]
    rfl
  unfold h160_to_ss58 h160_to_ss58_inlined
  rw [hstrip]
  have hlen2 : (rest.map pyLower).length = 40 := by rw [List.length_map]; exact hlen'
  rw [if_neg (by omega)]
  rw [bytesFromHex_map_pyLower rest]
  rw [show List.drop 2 (48 :: 120 :: rest) = rest from rfl]

/-- Witness for C9: the input `"0x" ++ "F"*40` (upper-case hex digits). -/
theorem claim_C9_witness :
    h160_to_ss58 ([48, 120] ++ List.replicate 40 70) 42
      = h160_to_ss58_inlined ([48, 120] ++ List.replicate 40 70) 42 :=
  claim_C9 ([48, 120] ++ List.replicate 40 70) 42 (by decide) (by decide) (by decide)

end Superburn
